import Mathlib

/-!
Verification of the match-table algebra in `tacl/results.py`.

A match table is a list of rows `(ngram, size, work, siglum, label, count)`.
The `Text`/`Tokenizer` collaborators are not part of the sources under
verification; following the specification (tokenize and join are mutual
inverses), an n-gram and a witness text are represented by their token
sequences (`List String`), identifying an n-gram with its canonical joined
form.  Python exceptions are modelled by `Option`: `none` is a raised error.
-/

/-- A match-table row, mirroring the CSV columns
`ngram, size, work, siglum, label, count` of `results.py`.  The `ngram`
field holds the token sequence of the n-gram (spec-modelled tokenizer). -/
structure Row where
  ngram : List String
  size : Nat
  work : String
  siglum : String
  label : String
  count : Int
deriving DecidableEq, Repr

/-- The key by which rows are identified across transforms. -/
def tripleOf (r : Row) : List String × String × String :=
  (r.ngram, r.work, r.siglum)

/-- Rows with a positive count (`matches[matches[COUNT] > 0]`,
results.py line 470). -/
def posM (m : List Row) : List Row :=
  m.filter (fun r => decide (0 < r.count))

/-- The rows of `m` bearing n-gram `g` (a `groupby(NGRAM)` group,
in original row order). -/
def ngramGroup (m : List Row) (g : List String) : List Row :=
  m.filter (fun r => decide (r.ngram = g))

/-- Number of distinct labels among the rows (`nunique` on the label
column). -/
def labelCard (m : List Row) : Nat :=
  ((m.map Row.label).toFinset).card

/-- `Results._reciprocal_remove` (results.py lines 468-473): count the
distinct labels of the whole table, restrict to positive-count rows, group
those by n-gram and keep a group only when its distinct labels number as
many as the whole table's. -/
def reciprocalRemoveM (m : List Row) : List Row :=
  (posM m).filter
    (fun r => decide (labelCard (ngramGroup (posM m) r.ngram) = labelCard m))

/-- `Results.remove_label` (results.py lines 541-552).  The row count for
the label is looked up with `value_counts()[label]`, which raises
`KeyError` (here `none`) when no row bears the label; only then is the
table filtered. -/
def removeLabelM (m : List Row) (label : String) : Option (List Row) :=
  if m.any (fun r => r.label == label) then
    some (m.filter (fun r => !(r.label == label)))
  else
    none

/-- Python truthiness of an optional integer argument: `None` and `0` are
falsy. -/
def truthy : Option Int → Bool
  | none => false
  | some k => decide (k ≠ 0)

/-- Rows whose n-gram has some row in `m` with count satisfying `p`
(the `keep_ngrams` set followed by `isin`, results.py lines 392-410). -/
def keepByNgram (m : List Row) (p : Int → Bool) : List Row :=
  m.filter (fun r => m.any (fun x => x.ngram == r.ngram && p x.count))

/-- `Results.prune_by_ngram_count_per_work` (results.py lines 376-410).
The Python code tests the bounds with `if minimum and maximum:` /
`elif minimum:` / `elif maximum:`, so an unset or zero bound disables the
corresponding comparison, and with both bounds falsy the table is left
unchanged. -/
def pruneByNgramCountPerWork (minimum maximum : Option Int) (m : List Row) :
    List Row :=
  if truthy minimum && truthy maximum then
    keepByNgram m (fun c =>
      decide (minimum.getD 0 ≤ c) && decide (c ≤ maximum.getD 0))
  else if truthy minimum then
    keepByNgram m (fun c => decide (minimum.getD 0 ≤ c))
  else if truthy maximum then
    keepByNgram m (fun c => decide (c ≤ maximum.getD 0))
  else
    m

/-- Whether `c` lies within the inclusive range, an unset bound being
unbounded (the specification's reading of the prune filters). -/
def inRangeB (minimum maximum : Option Int) (c : Int) : Bool :=
  (match minimum with | none => true | some a => decide (a ≤ c)) &&
  (match maximum with | none => true | some b => decide (c ≤ b))

/-- Prune by per-work count as the specification words it: keep a row
exactly when some row bearing the same n-gram has a count inside the
inclusive range. -/
def pruneByNgramCountPerWorkSpecced (minimum maximum : Option Int)
    (m : List Row) : List Row :=
  m.filter (fun r => m.any (fun x =>
    x.ngram == r.ngram && inRangeB minimum maximum x.count))

/-- Association-list lookup, the model of a Python `dict` indexing
operation (first entry with the given key). -/
def lookupA {κ ν : Type} [DecidableEq κ] : List (κ × ν) → κ → Option ν
  | [], _ => none
  | (k, v) :: t, q => if q = k then some v else lookupA t q

/-- Association-list update: replace the value at an existing key, else
append the binding (a Python `dict` assignment, which keeps the key's
insertion position). -/
def upsertA {κ ν : Type} [DecidableEq κ] (l : List (κ × ν)) (k : κ) (v : ν) :
    List (κ × ν) :=
  if l.any (fun p => decide (p.1 = k)) then
    l.map (fun p => if p.1 = k then (k, v) else p)
  else
    l ++ [(k, v)]

/-- De-duplication keeping the first occurrence of each element, the order
in which `groupby(..., sort=False)` visits its group keys. -/
def dedupKeepFirst {α : Type} [DecidableEq α] (l : List α) : List α :=
  l.foldl (fun acc x => if x ∈ acc then acc else acc ++ [x]) []

/-- The corpus collaborator.  Modelled from the spec: `Corpus` is not
under the sources being verified; per its contract, `getSigla work` lists
the sigla of the work's witnesses and `getWitness work siglum` gives the
token content of a witness. -/
structure CorpusM where
  getSigla : String → List String
  getWitness : String → String → List String

/-- The nested `data` mapping label -> work -> sigla built by
`Results.zero_fill` (results.py lines 580-584) from the catalogue's
(work, label) pairs: `data.setdefault(label, {})[work]` is assigned the
work's sigla. -/
def buildCatData (catalogue : List (String × String)) (corpus : CorpusM) :
    List (String × List (String × List String)) :=
  catalogue.foldl
    (fun d p =>
      match lookupA d p.2 with
      | some inner => upsertA d p.2 (upsertA inner p.1 (corpus.getSigla p.1))
      | none => d ++ [(p.2, [(p.1, corpus.getSigla p.1)])])
    []

/-- Indexing `data[label][work]`; `none` is the `KeyError` raised when
either key is absent. -/
def lookup2 (d : List (String × List (String × List String)))
    (label work : String) : Option (List String) :=
  match lookupA d label with
  | none => none
  | some inner => lookupA inner work

/-- The grouping key of `zero_fill`: (label, ngram, size, work). -/
def zfKey (r : Row) : String × List String × Nat × String :=
  (r.label, r.ngram, r.size, r.work)

/-- The zero rows contributed by one `zero_fill` group (results.py lines
588-599).  `row_data` is a single dict that is mutated and appended once
per missing siglum, so all appended references share the final state:
`missing.length` copies of the row bearing the *last* missing siglum. -/
def zfGroupRows (m : List Row) (sigla : List String)
    (key : String × List String × Nat × String) : List Row :=
  let group := m.filter (fun r => decide (zfKey r = key))
  let missing := sigla.filter
    (fun s => (group.filter (fun r => decide (r.siglum = s))).isEmpty)
  match missing.getLast? with
  | none => []
  | some lastSiglum =>
      List.replicate missing.length
        ⟨key.2.1, key.2.2.1, key.2.2.2, lastSiglum, key.1, 0⟩

/-- The `zero_rows` accumulated over all groups, in group order; `none`
models the `KeyError` from `data[label][work]` at any group. -/
def zfRows (d : List (String × List (String × List String)))
    (m : List Row) : List (String × List String × Nat × String) →
    Option (List Row)
  | [] => some []
  | key :: rest =>
      match lookup2 d key.1 key.2.2.2 with
      | none => none
      | some sigla =>
          (zfRows d m rest).map (fun zs => zfGroupRows m sigla key ++ zs)

/-- `Results.zero_fill` (results.py lines 567-601): build the
label -> work -> sigla mapping from catalogue and corpus, group the table
by (label, ngram, size, work), synthesize the zero rows of each group and
append them to the table.  `none` models a raised `KeyError`. -/
def zeroFillM (corpus : CorpusM) (catalogue : List (String × String))
    (m : List Row) : Option (List Row) :=
  let d := buildCatData catalogue corpus
  let keys := dedupKeepFirst (m.map zfKey)
  (zfRows d m keys).map (fun zs => m ++ zs)

/-- The per-n-gram record kept by `Results.reduce` for one witness
(results.py lines 489-491). -/
structure NgramData where
  count : Int
  size : Nat
deriving DecidableEq, Repr

/-- All contiguous token subsequences of length `k` in positional order. -/
def windows (k : Nat) (l : List String) : List (List String) :=
  (List.range (l.length + 1 - k)).map (fun i => (l.drop i).take k)

/-- `Results._generate_substrings` (results.py lines 299-314).  Modelled
from the spec for the missing `Text.get_ngrams`: all contiguous token
subsequences of sizes 1 through `size - 1`, with multiplicity. -/
def substringsOf (g : List String) (size : Nat) : List (List String) :=
  (List.range' 1 (size - 1)).foldr (fun k acc => windows k g ++ acc) []

/-- Lower the count stored at key `s` by `c`, when `s` is present
(the `try`/`except KeyError` of `_reduce_by_ngram`). -/
def decAssoc (wd : List (List String × NgramData)) (s : List String)
    (c : Int) : List (List String × NgramData) :=
  wd.map (fun e => if e.1 = s then (e.1, ⟨e.2.count - c, e.2.size⟩) else e)

/-- `Results._reduce_by_ngram` (results.py lines 518-539): subtract the
n-gram's current count from every one of its substrings present in the
witness data, once per substring occurrence. -/
def reduceByNgram (wd : List (List String × NgramData)) (g : List String) :
    List (List String × NgramData) :=
  match lookupA wd g with
  | none => wd
  | some d => (substringsOf g d.size).foldl (fun w s => decAssoc w s d.count) wd

/-- Stable insertion into a size-descending list: the inserted element
goes after every element of size at least its own. -/
def insertBySizeDesc (sizeOf : List String → Nat)
    (l : List (List String)) (x : List String) : List (List String) :=
  match l with
  | [] => [x]
  | h :: t =>
      if sizeOf x ≤ sizeOf h then h :: insertBySizeDesc sizeOf t x
      else x :: h :: t

/-- The witness's n-grams sorted by declared size, descending, ties in
original order (Python's stable `list.sort`, results.py lines 493-495). -/
def sortBySizeDesc (wd : List (List String × NgramData)) :
    List (List String) :=
  (wd.map Prod.fst).foldl
    (insertBySizeDesc (fun g => ((lookupA wd g).map NgramData.size).getD 0)) []

/-- Process one witness of `Results.reduce` (results.py lines 492-498):
visit the n-grams in size-descending order and, for each whose current
count is positive, reduce its substrings' counts. -/
def processWitness (wd : List (List String × NgramData)) :
    List (List String × NgramData) :=
  (sortBySizeDesc wd).foldl
    (fun w g =>
      match lookupA w g with
      | some d => if 0 < d.count then reduceByNgram w g else w
      | none => w)
    wd

/-- The nested (work, siglum) -> ngram -> data structure derived from the
rows by `Results.reduce` (results.py lines 483-491). -/
def buildData (m : List Row) :
    List ((String × String) × List (List String × NgramData)) :=
  m.foldl
    (fun dat r =>
      match lookupA dat (r.work, r.siglum) with
      | some wd =>
          upsertA dat (r.work, r.siglum) (upsertA wd r.ngram ⟨r.count, r.size⟩)
      | none => dat ++ [((r.work, r.siglum), [(r.ngram, ⟨r.count, r.size⟩)])])
    []

/-- The work -> label mapping remembered while deriving the data
structure (results.py line 487). -/
def buildLabels (m : List Row) : List (String × String) :=
  m.foldl (fun lab r => upsertA lab r.work r.label) []

/-- `Results.reduce` (results.py lines 475-516): derive the per-witness
data, reduce each witness, and recreate the rows, dropping those whose
resulting count is not positive. -/
def reduceM (m : List Row) : List Row :=
  let dat := buildData m
  let labels := buildLabels m
  (dat.map (fun e =>
    let wd := processWitness e.2
    (wd.filter (fun gd => decide (0 < gd.2.count))).map
      (fun gd =>
        ⟨gd.1, gd.2.size, e.1.1, e.1.2, (lookupA labels e.1.1).getD "",
         gd.2.count⟩))).flatten

/-- The overlap index of `_generate_extended_ngrams` (results.py lines
246-249): each n-gram's first `n - 1` tokens point at the list of final
tokens of the n-grams sharing them. -/
def buildOverlapIndex (ngrams : List (List String)) :
    List (List String × List String) :=
  ngrams.foldl
    (fun ix g =>
      match g.getLast? with
      | none => ix
      | some tok =>
          match lookupA ix g.dropLast with
          | some vs => upsertA ix g.dropLast (vs ++ [tok])
          | none => ix ++ [(g.dropLast, [tok])])
    []

/-- Add to the set of extended n-grams (`set.add`: no duplicate, first
insertion fixes the position in this list model of the Python set). -/
def extAdd (l : List (List String)) (x : List String) : List (List String) :=
  if x ∈ l then l else l ++ [x]

/-- One iteration of the `while working_ngrams:` loop of
`_generate_extended_ngrams` (results.py lines 253-275): try to extend
every working n-gram by each indexed next token, keeping extensions that
occur in the witness tokens, and drop each base that extended.  Returns
the new extended set and the next working list. -/
def extPass (tokens : List String) (index : List (List String × List String))
    (overlap : Nat) (working extended : List (List String)) :
    List (List String) × List (List String) :=
  let st := working.foldl
    (fun (st : List (List String) × List (List String) × List (List String))
        base =>
      let nexts := (lookupA index (base.drop (base.length - overlap))).getD []
      let accepted := (nexts.map (fun tok => base ++ [tok])).filter
        (fun ext => decide (ext <:+: tokens))
      (accepted.foldl extAdd st.1, st.2.1 ++ accepted,
       if accepted.isEmpty then st.2.2 else extAdd st.2.2 base))
    (extended, [], [])
  (st.1.filter (fun g => !(st.2.2.contains g)), st.2.1)

/-- The extension loop, with enough fuel to cover every possible
iteration: each round lengthens the working n-grams by one token and an
accepted extension must occur in the witness tokens, so after
`tokens.length + 2` rounds the working list is necessarily empty. -/
def extendLoop (tokens : List String)
    (index : List (List String × List String)) (overlap : Nat) :
    Nat → List (List String) → List (List String) → List (List String)
  | 0, _, extended => extended
  | fuel + 1, working, extended =>
      if working.isEmpty then extended
      else
        let p := extPass tokens index overlap working extended
        extendLoop tokens index overlap fuel p.2 p.1

/-- Fuel-indexed scan replacing every left-to-right non-overlapping
occurrence of pattern `p` with the two-cell neutral placeholder
`[none, none]`, counting the replacements.  Any fuel of at least the
text's length computes the full scan (each step consumes at least one
cell). -/
def replaceCountF (p : List (Option String)) :
    Nat → List (Option String) → List (Option String) × Nat
  | 0, w => (w, 0)
  | fuel + 1, w =>
      if p = [] then (w, 0)
      else
        match w with
        | [] => ([], 0)
        | h :: t =>
            if p <+: (h :: t) then
              let r := replaceCountF p fuel ((h :: t).drop p.length)
              (none :: none :: r.1, r.2 + 1)
            else
              let r := replaceCountF p fuel t
              (h :: r.1, r.2)

/-- The token-level rendition of
`re.subn(re.escape(ngram), '  ', text)` (results.py line 293), using
`none` for the placeholder that prevents matches across freed-up
boundaries: replace each occurrence of `p`, left to right without
overlap, and count the replacements. -/
def replaceCount (p : List (Option String)) (w : List (Option String)) :
    List (Option String) × Nat :=
  replaceCountF p w.length w

/-- The alignment phase of `_generate_extended_ngrams` (results.py lines
287-294): overlay each extended n-gram on the (progressively consumed)
witness text, longest first, repeating it once per realized occurrence. -/
def alignNgrams (w : List (Option String)) :
    List (List String) → List (List String)
  | [] => []
  | e :: rest =>
      let r := replaceCount (e.map some) w
      List.replicate r.2 e ++ alignNgrams r.1 rest

/-- `Results._generate_extended_ngrams` (results.py lines 204-297),
token-level per the spec-modelled tokenizer: build the overlap index,
iterate extension, sort the maximal set longest first and align it with
the witness tokens. -/
def genExtendedNgrams (tokens : List String) (wmNgrams : List (List String))
    (highestN : Nat) : List (List String) :=
  let overlap := highestN - 1
  let index := buildOverlapIndex wmNgrams
  let extended0 := dedupKeepFirst wmNgrams
  let final :=
    extendLoop tokens index overlap (tokens.length + 2) wmNgrams extended0
  let sortedE := final.foldl (insertBySizeDesc List.length) []
  alignNgrams (tokens.map some) sortedE

/-- The aggregation key of `_generate_extended_matches`:
(ngram, work, siglum, size, label). -/
def rowKey5 (r : Row) : List String × String × String × Nat × String :=
  (r.ngram, r.work, r.siglum, r.size, r.label)

/-- The `groupby(...).sum()` merging duplicate extended matches
(results.py lines 196-202): one row per distinct key, counts summed.
Rows appear in first-occurrence key order (pandas sorts the group keys;
no settled claim concerns the order of this block). -/
def mergeRows (rs : List Row) : List Row :=
  (dedupKeepFirst (rs.map rowKey5)).map
    (fun k =>
      ⟨k.1, k.2.2.2.1, k.2.1, k.2.2.1, k.2.2.2.2,
       ((rs.filter (fun r => decide (rowKey5 r = k))).map Row.count).sum⟩)

/-- `Results._generate_extended_matches` (results.py lines 150-202): for
every aligned occurrence of every extended n-gram, one row per contained
n-gram of each size from `highestN + 1` up to the extension's length,
counted within the extension, then merged across occurrences. -/
def genExtendedMatches (extNgrams : List (List String)) (highestN : Nat)
    (work siglum label : String) : List Row :=
  let rows := extNgrams.foldr
    (fun e acc =>
      ((List.range' (highestN + 1) (e.length - highestN)).foldr
        (fun k acc2 =>
          (dedupKeepFirst (windows k e)).map
            (fun g =>
              ⟨g, k, work, siglum, label, ((windows k e).count g : Int)⟩)
            ++ acc2)
        []) ++ acc)
    []
  mergeRows rows

/-- The largest n-gram size present in the table. -/
def maxSize (m : List Row) : Nat :=
  (m.map Row.size).foldr max 0

/-- `Results._is_intersect_results` (results.py lines 316-330): sample the
first row and test whether its n-gram also occurs under another label. -/
def isIntersect (m : List Row) : Bool :=
  match m.head? with
  | none => false
  | some r => m.any (fun x => x.ngram == r.ngram && !(x.label == r.label))

/-- `Results.extend` (results.py lines 102-148): no-op on an empty or
1-gram-only table; otherwise, per (work, siglum, label) group of the
largest-size matches, generate the extended matches, reciprocally remove
them when the table looks like intersect results, and append them. -/
def extendM (corpus : CorpusM) (m : List Row) : List Row :=
  if m.isEmpty then m
  else
    let highestN := maxSize m
    if highestN = 1 then m
    else
      let isInt := isIntersect m
      let maxMatches := m.filter (fun r => r.size == highestN)
      let groups :=
        dedupKeepFirst (maxMatches.map (fun r => (r.work, r.siglum, r.label)))
      let extRows := (groups.map (fun wsl =>
        let wm := (maxMatches.filter (fun r =>
          decide (r.work = wsl.1) && decide (r.siglum = wsl.2.1) &&
          decide (r.label = wsl.2.2))).map Row.ngram
        genExtendedMatches
          (genExtendedNgrams (corpus.getWitness wsl.1 wsl.2.1) wm highestN)
          highestN wsl.1 wsl.2.1 wsl.2.2)).flatten
      let extRows2 := if isInt then reciprocalRemoveM extRows else extRows
      m ++ extRows2

/-- The characters contributed by the tokens that follow the first one:
each is preceded by the joiner (spec-modelled canonical join with a
single-space joiner). -/
def sepCh (ts : List String) : List Char :=
  ts.foldr (fun u acc => ' ' :: u.data ++ acc) []

/-- The canonical joined form of a token sequence, as its character
list. -/
def joinCh : List String → List Char
  | [] => []
  | t :: rest => t.data ++ sepCh rest

/-- The label column of a table as a set (`nunique` counts its size). -/
def labelSet (m : List Row) : Finset String :=
  (m.map Row.label).toFinset

/-- A two-label table in which n-gram `x` is attested under both labels
and also has a zero-count row. -/
def rowXA : Row := ⟨["x"], 1, "w1", "a", "A", 1⟩

/-- Second positive row of the two-label example, under label B. -/
def rowXB : Row := ⟨["x"], 1, "w2", "a", "B", 1⟩

/-- The zero-count row of the two-label example. -/
def rowXZ : Row := ⟨["x"], 1, "w2", "b", "B", 0⟩

/-- Example table for reciprocal removal: n-gram `x` is attested under
every label, and additionally has a zero-count row. -/
def tblRecip : List Row := [rowXA, rowXB, rowXZ]

/-- A corpus whose every work has the three witnesses a, b and c. -/
def corpusABC : CorpusM := ⟨fun _ => ["a", "b", "c"], fun _ _ => []⟩

/-- A catalogue with the single work `w`, labelled A. -/
def catW : List (String × String) := [("w", "A")]

/-- A table attesting n-gram `x` only in witness a of work `w`. -/
def tblZF : List Row := [⟨["x"], 1, "w", "a", "A", 1⟩]

/-- The zero row `zero_fill` synthesizes for witness c of work `w`. -/
def rowZC : Row := ⟨["x"], 1, "w", "c", "A", 0⟩

/-- What `zero_fill` actually returns on `tblZF`: the original row plus
two copies of the witness-c zero row, and no row for witness b. -/
def outZF : List Row := [⟨["x"], 1, "w", "a", "A", 1⟩, rowZC, rowZC]

/-- A catalogue that does not mention work `w2`. -/
def catW1 : List (String × String) := [("w1", "A")]

/-- A table whose single row belongs to work `w2`. -/
def tblW2 : List Row := [⟨["x"], 1, "w2", "a", "A", 1⟩]

/-- A catalogue covering work `w` and also a work `v` that the table
never mentions. -/
def catExtra : List (String × String) := [("w", "A"), ("v", "Q")]

/-- A corpus in which work `w` has the single witness a. -/
def corpusA : CorpusM := ⟨fun _ => ["a"], fun _ _ => []⟩

/-- A one-row table whose n-gram has count 1 everywhere. -/
def tblPW : List Row := [⟨["x"], 1, "w", "a", "A", 1⟩]

/-- Scenario C of the spec: the same n-gram with a count-3 row in work
`w1` and a count-1 row in work `w2`. -/
def tblPerWork : List Row :=
  [⟨["x"], 1, "w1", "a", "A", 3⟩, ⟨["x"], 1, "w2", "a", "A", 1⟩]

/-- A witness bearing a trigram of count 1 and one of its bigrams of
count 2, for exercising `reduce`. -/
def tblReduce : List Row :=
  [⟨["a", "b", "c"], 3, "w", "a", "A", 1⟩, ⟨["b", "c"], 2, "w", "a", "A", 2⟩]

/-- The corpus of the spec's Scenario B: one witness with token text
`a b c d`. -/
def corpusExt : CorpusM := ⟨fun _ => ["base"], fun _ _ => ["a", "b", "c", "d"]⟩

/-- Scenario B's table: the two overlapping trigrams of `a b c d`. -/
def tblExt : List Row :=
  [⟨["a", "b", "c"], 3, "w", "base", "A", 1⟩,
   ⟨["b", "c", "d"], 3, "w", "base", "A", 1⟩]

/-- The quadgram row that Extend adds in Scenario B. -/
def rowExt : Row := ⟨["a", "b", "c", "d"], 4, "w", "base", "A", 1⟩

theorem mem_posM {m : List Row} {r : Row} :
    r ∈ posM m ↔ r ∈ m ∧ 0 < r.count := by
  simp [posM, List.mem_filter]

theorem mem_ngramGroup {l : List Row} {g : List String} {r : Row} :
    r ∈ ngramGroup l g ↔ r ∈ l ∧ r.ngram = g := by
  simp [ngramGroup, List.mem_filter]

theorem mem_labelSet {m : List Row} {s : String} :
    s ∈ labelSet m ↔ ∃ r ∈ m, r.label = s := by
  simp [labelSet]

theorem labelCard_eq_card (m : List Row) : labelCard m = (labelSet m).card :=
  rfl

theorem mem_rr_iff {m : List Row} {r : Row} :
    r ∈ reciprocalRemoveM m ↔
      r ∈ m ∧ 0 < r.count ∧
        labelCard (ngramGroup (posM m) r.ngram) = labelCard m := by
  simp only [reciprocalRemoveM, posM, List.mem_filter, decide_eq_true_eq,
    and_assoc]

/-- Claim C1 counterexample: in `tblRecip` the n-gram of the zero-count
row `rowXZ` is attested under every label (its positive rows carry as
many distinct labels as the table), yet Reciprocal Remove drops the
zero-count row, contradicting the claim that all rows of a kept n-gram
are retained. -/
theorem c1_zero_row_dropped :
    rowXZ ∈ tblRecip ∧
      labelCard (ngramGroup (posM tblRecip) rowXZ.ngram) = labelCard tblRecip ∧
      rowXZ ∉ reciprocalRemoveM tblRecip := by
  refine ⟨by decide, by decide, by decide⟩

/-- Claim C1 (amended): a row survives Reciprocal Remove exactly when it
is an input row with positive count whose n-gram's positive-count rows
carry as many distinct labels as the whole table; zero-count rows are
never retained. -/
theorem c1_reciprocal_remove_characterization (m : List Row) (r : Row) :
    r ∈ reciprocalRemoveM m ↔
      r ∈ m ∧ 0 < r.count ∧
        labelCard (ngramGroup (posM m) r.ngram) = labelCard m :=
  mem_rr_iff

theorem labelSet_subset {l l' : List Row} (h : ∀ r ∈ l, r ∈ l') :
    labelSet l ⊆ labelSet l' := by
  intro s hs
  obtain ⟨r, hr, hrs⟩ := mem_labelSet.mp hs
  exact mem_labelSet.mpr ⟨r, h r hr, hrs⟩

theorem labelSet_eq_of_mem_iff {l l' : List Row}
    (h : ∀ r, r ∈ l ↔ r ∈ l') : labelSet l = labelSet l' :=
  Finset.Subset.antisymm (labelSet_subset fun r hr => (h r).mp hr)
    (labelSet_subset fun r hr => (h r).mpr hr)

theorem rr_mem_of_group {m : List Row} {x : Row} (hx : x ∈ posM m)
    (hcard : labelCard (ngramGroup (posM m) x.ngram) = labelCard m) :
    x ∈ reciprocalRemoveM m := by
  obtain ⟨hxm, hxc⟩ := mem_posM.mp hx
  exact mem_rr_iff.mpr ⟨hxm, hxc, hcard⟩

theorem rr_group_full_labels {m : List Row} {r : Row}
    (hr : r ∈ reciprocalRemoveM m) :
    labelSet (ngramGroup (posM m) r.ngram) = labelSet m := by
  obtain ⟨hm, hc, hcard⟩ := mem_rr_iff.mp hr
  have hsub : labelSet (ngramGroup (posM m) r.ngram) ⊆ labelSet m := by
    apply labelSet_subset
    intro x hx
    exact (mem_posM.mp (mem_ngramGroup.mp hx).1).1
  refine Finset.eq_of_subset_of_card_le hsub ?_
  rw [← labelCard_eq_card, ← labelCard_eq_card, hcard]

theorem rr_labelSet_eq {m : List Row} {r : Row}
    (hr : r ∈ reciprocalRemoveM m) :
    labelSet (reciprocalRemoveM m) = labelSet m := by
  apply Finset.Subset.antisymm
  · exact labelSet_subset fun x hx => (mem_rr_iff.mp hx).1
  · have hgrp := rr_group_full_labels hr
    rw [← hgrp]
    apply labelSet_subset
    intro x hx
    obtain ⟨hxp, hxg⟩ := mem_ngramGroup.mp hx
    apply rr_mem_of_group hxp
    rw [hxg]
    exact (mem_rr_iff.mp hr).2.2

theorem rr_group_stable {m : List Row} {r : Row}
    (hr : r ∈ reciprocalRemoveM m) (x : Row) :
    x ∈ ngramGroup (posM (reciprocalRemoveM m)) r.ngram ↔
      x ∈ ngramGroup (posM m) r.ngram := by
  have hcard := (mem_rr_iff.mp hr).2.2
  constructor
  · intro hx
    obtain ⟨hxp, hxg⟩ := mem_ngramGroup.mp hx
    obtain ⟨hxrr, hxc⟩ := mem_posM.mp hxp
    have hxm := (mem_rr_iff.mp hxrr).1
    exact mem_ngramGroup.mpr ⟨mem_posM.mpr ⟨hxm, hxc⟩, hxg⟩
  · intro hx
    obtain ⟨hxp, hxg⟩ := mem_ngramGroup.mp hx
    have hxrr : x ∈ reciprocalRemoveM m := by
      apply rr_mem_of_group hxp
      rw [hxg]
      exact hcard
    exact mem_ngramGroup.mpr
      ⟨mem_posM.mpr ⟨hxrr, (mem_posM.mp hxp).2⟩, hxg⟩

/-- Claim C6: Reciprocal Remove is idempotent — a second application
returns the table of the first unchanged. -/
theorem c6_reciprocal_remove_idempotent (m : List Row) :
    reciprocalRemoveM (reciprocalRemoveM m) = reciprocalRemoveM m := by
  have hpos : posM (reciprocalRemoveM m) = reciprocalRemoveM m := by
    apply List.filter_eq_self.mpr
    intro r hr
    exact decide_eq_true (mem_rr_iff.mp hr).2.1
  have hdef : reciprocalRemoveM (reciprocalRemoveM m) =
      (posM (reciprocalRemoveM m)).filter
        (fun r => decide
          (labelCard (ngramGroup (posM (reciprocalRemoveM m)) r.ngram) =
            labelCard (reciprocalRemoveM m))) := rfl
  rw [hdef]
  simp only [hpos]
  apply List.filter_eq_self.mpr
  intro r hr
  apply decide_eq_true
  have hgrp : labelSet (ngramGroup (posM (reciprocalRemoveM m)) r.ngram) =
      labelSet (ngramGroup (posM m) r.ngram) :=
    labelSet_eq_of_mem_iff (rr_group_stable hr)
  simp only [hpos] at hgrp
  calc labelCard (ngramGroup (reciprocalRemoveM m) r.ngram)
      = labelCard (ngramGroup (posM m) r.ngram) := congrArg Finset.card hgrp
    _ = labelCard m := (mem_rr_iff.mp hr).2.2
    _ = labelCard (reciprocalRemoveM m) :=
        (congrArg Finset.card (rr_labelSet_eq hr)).symm

/-- Claim C7 counterexample: with both bounds set to 0 — the inclusive
range [0, 0] — Python truthiness disables the filter entirely, so a
table whose only n-gram has no count-0 row is returned unchanged instead
of emptied as the claim's range semantics demands. -/
theorem c7_zero_bound_not_filtered :
    pruneByNgramCountPerWork (some 0) (some 0) tblPW ≠
      pruneByNgramCountPerWorkSpecced (some 0) (some 0) tblPW := by
  decide

/-- Claim C7 (amended): provided each supplied bound is nonzero (a zero
bound is Python-falsy and treated as unset), prune by per-work count
keeps exactly the rows whose n-gram has at least one witness row with a
count inside the inclusive range. -/
theorem c7_prune_per_work_range (minimum maximum : Option Int)
    (m : List Row) (hmn : minimum ≠ some 0) (hmx : maximum ≠ some 0) :
    pruneByNgramCountPerWork minimum maximum m =
      pruneByNgramCountPerWorkSpecced minimum maximum m := by
  match minimum, maximum with
  | none, none =>
      simp only [pruneByNgramCountPerWork, truthy, Bool.false_and, if_false,
        Bool.false_eq_true, pruneByNgramCountPerWorkSpecced, inRangeB,
        Bool.and_true]
      refine (List.filter_eq_self.mpr ?_).symm
      intro r hr
      exact List.any_eq_true.mpr ⟨r, hr, by simp⟩
  | none, some b =>
      have hb : b ≠ 0 := fun h => hmx (by rw [h])
      simp [pruneByNgramCountPerWork, truthy, hb,
        pruneByNgramCountPerWorkSpecced, inRangeB, keepByNgram]
  | some a, none =>
      have ha : a ≠ 0 := fun h => hmn (by rw [h])
      simp [pruneByNgramCountPerWork, truthy, ha,
        pruneByNgramCountPerWorkSpecced, inRangeB, keepByNgram]
  | some a, some b =>
      have ha : a ≠ 0 := fun h => hmn (by rw [h])
      have hb : b ≠ 0 := fun h => hmx (by rw [h])
      simp [pruneByNgramCountPerWork, truthy, ha, hb,
        pruneByNgramCountPerWorkSpecced, inRangeB, keepByNgram]

/-- Witness for claim C7's amended theorem, at the spec's Scenario C:
minimum 2 and no maximum, an n-gram with a count-3 row in one work and a
count-1 row in another; the code agrees with the range semantics and all
rows, the count-1 row included, are kept. -/
theorem c7_prune_per_work_range_witness :
    (pruneByNgramCountPerWork (some 2) none tblPerWork =
      pruneByNgramCountPerWorkSpecced (some 2) none tblPerWork) ∧
    pruneByNgramCountPerWork (some 2) none tblPerWork = tblPerWork :=
  ⟨c7_prune_per_work_range (some 2) none tblPerWork (by decide) (by decide),
   by decide⟩

/-- Claim C10: removing a label that labels no row raises `KeyError`
(modelled as `none`) from the row-count lookup, rather than silently
filtering; the table assignment never happens. -/
theorem c10_remove_label_missing_raises (m : List Row) (label : String)
    (h : ∀ r ∈ m, r.label ≠ label) : removeLabelM m label = none := by
  have hany : m.any (fun r => r.label == label) = false := by
    simp only [List.any_eq_false]
    intro r hr
    simpa using h r hr
  simp [removeLabelM, hany]

/-- Witness for claim C10: the two-label example table has no row
labelled Q, and removing Q errors out. -/
theorem c10_remove_label_missing_raises_witness :
    removeLabelM tblRecip "Q" = none :=
  c10_remove_label_missing_raises tblRecip "Q" (by decide)

/-- Claim C2: the code's output on a work with sigla a, b, c when only a
is attested.  Because `row_data` is one shared dict appended once per
missing siglum, the result holds two identical rows for the last missing
siglum c and no row at all for siglum b. -/
theorem c2_zero_fill_aliased_rows :
    zeroFillM corpusABC catW tblZF = some outZF ∧
      ∀ r ∈ outZF, ¬(r.work = "w" ∧ r.siglum = "b") := by
  exact ⟨by decide, by decide⟩

/-- Claim C9: `zero_fill` breaks (ngram, work, siglum) uniqueness — from
a table with distinct triples it returns a table containing the witness-c
zero row twice. -/
theorem c9_zero_fill_duplicate_triples :
    (tblZF.map tripleOf).Nodup ∧
      ∃ out, zeroFillM corpusABC catW tblZF = some out ∧
        ¬(out.map tripleOf).Nodup := by
  exact ⟨by decide, outZF, by decide, by decide⟩

theorem lookupA_append {κ ν : Type} [DecidableEq κ] (a b : List (κ × ν))
    (q : κ) :
    lookupA (a ++ b) q =
      match lookupA a q with
      | some v => some v
      | none => lookupA b q := by
  induction a with
  | nil => simp [lookupA]
  | cons p t ih =>
      by_cases hq : q = p.1 <;> simp [lookupA, hq, ih]

theorem lookupA_eq_none_of_not_mem {κ ν : Type} [DecidableEq κ]
    {l : List (κ × ν)} {q : κ}
    (h : l.any (fun p => decide (p.1 = q)) = false) : lookupA l q = none := by
  induction l with
  | nil => rfl
  | cons p t ih =>
      simp only [List.any_cons, Bool.or_eq_false_iff] at h
      have hq : q ≠ p.1 := fun he => by simp [he.symm] at h
      simp [lookupA, hq, ih h.2]

theorem lookupA_mapFix {κ ν : Type} [DecidableEq κ]
    {l : List (κ × ν)} {k : κ} {v : ν}
    (h : l.any (fun p => decide (p.1 = k)) = true) :
    lookupA (l.map (fun p => if p.1 = k then (k, v) else p)) k = some v := by
  induction l with
  | nil => simp at h
  | cons p t ih =>
      simp only [List.any_cons, Bool.or_eq_true] at h
      rw [List.map_cons]
      by_cases hpk : p.1 = k
      · rw [if_pos hpk]
        simp [lookupA]
      · rw [if_neg hpk]
        have ht : t.any (fun p => decide (p.1 = k)) = true := by
          rcases h with h | h
          · exact absurd (of_decide_eq_true h) hpk
          · exact h
        have hk : k ≠ p.1 := fun he => hpk he.symm
        simp only [lookupA, if_neg hk]
        exact ih ht

theorem lookupA_mapFix_ne {κ ν : Type} [DecidableEq κ]
    (l : List (κ × ν)) (k : κ) (v : ν) {q : κ} (hq : q ≠ k) :
    lookupA (l.map (fun p => if p.1 = k then (k, v) else p)) q =
      lookupA l q := by
  induction l with
  | nil => rfl
  | cons p t ih =>
      rw [List.map_cons]
      by_cases hpk : p.1 = k
      · rw [if_pos hpk]
        have hqp : q ≠ p.1 := fun he => hq (he.trans hpk)
        simp only [lookupA, if_neg hq, if_neg hqp]
        exact ih
      · rw [if_neg hpk]
        by_cases hqp : q = p.1
        · simp only [lookupA, if_pos hqp]
        · simp only [lookupA, if_neg hqp]
          exact ih

theorem lookupA_upsertA_self {κ ν : Type} [DecidableEq κ]
    (l : List (κ × ν)) (k : κ) (v : ν) :
    lookupA (upsertA l k v) k = some v := by
  unfold upsertA
  split
  · exact lookupA_mapFix (by assumption)
  · rename_i hany
    rw [lookupA_append]
    rw [lookupA_eq_none_of_not_mem (Bool.not_eq_true _ ▸ hany)]
    simp [lookupA]

theorem lookupA_upsertA_ne {κ ν : Type} [DecidableEq κ]
    (l : List (κ × ν)) (k : κ) (v : ν) {q : κ} (hq : q ≠ k) :
    lookupA (upsertA l k v) q = lookupA l q := by
  unfold upsertA
  split
  · exact lookupA_mapFix_ne l k v hq
  · rw [lookupA_append]
    cases hl : lookupA l q with
    | some w => rfl
    | none => simp [lookupA, hq]

theorem buildCatData_append (cat : List (String × String)) (p) (corpus) :
    buildCatData (cat ++ [p]) corpus =
      (match lookupA (buildCatData cat corpus) p.2 with
       | some inner =>
           upsertA (buildCatData cat corpus) p.2
             (upsertA inner p.1 (corpus.getSigla p.1))
       | none =>
           buildCatData cat corpus ++ [(p.2, [(p.1, corpus.getSigla p.1)])]) := by
  unfold buildCatData
  rw [List.foldl_append]
  rfl

theorem lookup2_buildCatData {cat : List (String × String)}
    {corpus : CorpusM} {w l : String} (h : (w, l) ∈ cat) :
    (lookup2 (buildCatData cat corpus) l w).isSome := by
  induction cat using List.reverseRecOn with
  | nil => simp at h
  | append_singleton cat p ih =>
      rw [buildCatData_append]
      rcases List.mem_append.mp h with hm | hm
      · have ihS := ih hm
        cases hlp : lookupA (buildCatData cat corpus) p.2 with
        | some inner =>
            by_cases hl : l = p.2
            · subst hl
              unfold lookup2 at ihS ⊢
              rw [hlp] at ihS
              rw [lookupA_upsertA_self]
              by_cases hw : w = p.1
              · subst hw
                show (lookupA
                  (upsertA inner p.1 (corpus.getSigla p.1)) p.1).isSome
                rw [lookupA_upsertA_self]
                rfl
              · show (lookupA
                    (upsertA inner p.1 (corpus.getSigla p.1)) w).isSome
                rw [lookupA_upsertA_ne _ _ _ hw]
                exact ihS
            · unfold lookup2 at ihS ⊢
              rw [lookupA_upsertA_ne _ _ _ hl]
              exact ihS
        | none =>
            unfold lookup2 at ihS ⊢
            rw [lookupA_append]
            cases hll : lookupA (buildCatData cat corpus) l with
            | some innl =>
                rw [hll] at ihS
                exact ihS
            | none =>
                rw [hll] at ihS
                simp at ihS
      · have hp : (w, l) = p := by
          simpa using hm
        obtain ⟨pw, pl⟩ := p
        injection hp with hw hl
        subst hw
        subst hl
        dsimp only
        cases hlp : lookupA (buildCatData cat corpus) l with
        | some inner =>
            unfold lookup2
            rw [lookupA_upsertA_self]
            show (lookupA (upsertA inner w (corpus.getSigla w)) w).isSome
            rw [lookupA_upsertA_self]
            rfl
        | none =>
            unfold lookup2
            rw [lookupA_append, hlp]
            simp [lookupA]

theorem dedupKeepFirst_sub {α : Type} [DecidableEq α] {l : List α} {x : α}
    (h : x ∈ dedupKeepFirst l) : x ∈ l := by
  suffices aux : ∀ l' acc : List α,
      x ∈ l'.foldl (fun acc y => if y ∈ acc then acc else acc ++ [y]) acc →
        x ∈ acc ∨ x ∈ l' by
    rcases aux l [] h with h0 | h0
    · simp at h0
    · exact h0
  intro l'
  induction l' with
  | nil => intro acc hx; exact Or.inl hx
  | cons a t ih =>
      intro acc hx
      rw [List.foldl_cons] at hx
      rcases ih _ hx with hacc | ht
      · by_cases ha : a ∈ acc
        · rw [if_pos ha] at hacc
          exact Or.inl hacc
        · rw [if_neg ha] at hacc
          rcases List.mem_append.mp hacc with h1 | h1
          · exact Or.inl h1
          · simp at h1
            subst h1
            exact Or.inr (List.mem_cons_self _ _)
      · exact Or.inr (List.mem_cons_of_mem a ht)

theorem zfRows_isSome {d : List (String × List (String × List String))}
    {m : List Row} {ks : List (String × List String × Nat × String)}
    (h : ∀ k ∈ ks, (lookup2 d k.1 k.2.2.2).isSome) :
    (zfRows d m ks).isSome := by
  induction ks with
  | nil => rfl
  | cons k t ih =>
      unfold zfRows
      cases hk : lookup2 d k.1 k.2.2.2 with
      | none =>
          have := h k (List.mem_cons_self _ _)
          rw [hk] at this
          simp at this
      | some sigla =>
          have ihS := ih (fun k' hk' => h k' (List.mem_cons_of_mem _ hk'))
          cases hz : zfRows d m t with
          | none => rw [hz] at ihS; simp at ihS
          | some zs => simp [hz]

/-- Claim C8 counterexample: the table's single row belongs to work `w2`,
which the catalogue does not mention; `zero_fill` raises `KeyError`
(modelled as `none`) instead of completing. -/
theorem c8_table_work_missing_from_catalogue_raises :
    zeroFillM corpusABC catW1 tblW2 = none := by
  decide

/-- Claim C8 (amended): Zero Fill completes without error whenever every
row's (work, label) pair appears in the catalogue — in particular the
catalogue may freely mention labels and works absent from the table; but
a table row whose (work, label) is not catalogued raises `KeyError`. -/
theorem c8_zero_fill_total_when_covered (corpus : CorpusM)
    (cat : List (String × String)) (m : List Row)
    (h : ∀ r ∈ m, (r.work, r.label) ∈ cat) :
    (zeroFillM corpus cat m).isSome := by
  have hk : ∀ k ∈ dedupKeepFirst (m.map zfKey),
      (lookup2 (buildCatData cat corpus) k.1 k.2.2.2).isSome := by
    intro k hkmem
    obtain ⟨r, hr, hkey⟩ := List.mem_map.mp (dedupKeepFirst_sub hkmem)
    have h1 : k.1 = r.label := by rw [← hkey]; rfl
    have h2 : k.2.2.2 = r.work := by rw [← hkey]; rfl
    rw [h1, h2]
    exact lookup2_buildCatData (h r hr)
  have hz := zfRows_isSome (d := buildCatData cat corpus) (m := m) hk
  unfold zeroFillM
  cases hzz : zfRows (buildCatData cat corpus) m (dedupKeepFirst (m.map zfKey))
    with
  | none => rw [hzz] at hz; simp at hz
  | some zs => simp [hzz]

/-- Witness for claim C8's amended theorem: the catalogue covers the
table's only (work, label) pair and additionally names a work `v` with
label Q that the table never mentions; Zero Fill completes. -/
theorem c8_zero_fill_total_when_covered_witness :
    (zeroFillM corpusA catExtra tblZF).isSome :=
  c8_zero_fill_total_when_covered corpusA catExtra tblZF (by decide)

theorem zfGroupRows_count {m : List Row} {sigla : List String}
    {key : String × List String × Nat × String} {r : Row}
    (h : r ∈ zfGroupRows m sigla key) : r.count = 0 := by
  unfold zfGroupRows at h
  dsimp only at h
  split at h
  · simp at h
  · have := List.eq_of_mem_replicate h
    rw [this]

theorem zfRows_counts {d : List (String × List (String × List String))}
    {m : List Row} {ks : List (String × List String × Nat × String)}
    {zs : List Row} (h : zfRows d m ks = some zs) :
    ∀ r ∈ zs, r.count = 0 := by
  induction ks generalizing zs with
  | nil =>
      unfold zfRows at h
      obtain rfl : ([] : List Row) = zs := by simpa using h
      intro r hr
      simp at hr
  | cons k t ih =>
      unfold zfRows at h
      cases hk : lookup2 d k.1 k.2.2.2 with
      | none => rw [hk] at h; simp at h
      | some sigla =>
          rw [hk] at h
          obtain ⟨zs', hzs', rfl⟩ := Option.map_eq_some'.mp h
          intro r hr
          rcases List.mem_append.mp hr with hg | hz
          · exact zfGroupRows_count hg
          · exact ih hzs' r hz

/-- Claim C5: Zero Fill returns the input rows unchanged, in place, with
only count-0 rows appended after them. -/
theorem c5_zero_fill_conserves (corpus : CorpusM)
    (cat : List (String × String)) (m out : List Row)
    (h : zeroFillM corpus cat m = some out) :
    ∃ zs, out = m ++ zs ∧ ∀ r ∈ zs, r.count = 0 := by
  unfold zeroFillM at h
  obtain ⟨zs, hzs, hout⟩ := Option.map_eq_some'.mp h
  exact ⟨zs, hout.symm, zfRows_counts hzs⟩

/-- Witness for claim C5 at the concrete zero-fill run: the output is the
input table followed by count-0 rows only. -/
theorem c5_zero_fill_conserves_witness :
    ∃ zs, outZF = tblZF ++ zs ∧ ∀ r ∈ zs, r.count = 0 :=
  c5_zero_fill_conserves corpusABC catW tblZF outZF (by decide)

theorem lookupA_decAssoc (wd : List (List String × NgramData))
    (s : List String) (c : Int) (g : List String) :
    lookupA (decAssoc wd s c) g =
      (lookupA wd g).map
        (fun d => if g = s then ⟨d.count - c, d.size⟩ else d) := by
  induction wd with
  | nil => rfl
  | cons e t ih =>
      obtain ⟨k, d⟩ := e
      simp only [decAssoc, List.map_cons] at ih ⊢
      by_cases hks : k = s
      · rw [if_pos hks]
        by_cases hgk : g = k
        · subst hgk
          simp [lookupA, hks]
        · simp only [lookupA, if_neg hgk]
          exact ih
      · rw [if_neg hks]
        by_cases hgk : g = k
        · subst hgk
          simp [lookupA, hks]
        · simp only [lookupA, if_neg hgk]
          exact ih

/-- Pointwise domination between witness-data states: every stored n-gram
keeps its entry, with a count that has not increased and an unchanged
size. -/
def wdLe (wd' wd : List (List String × NgramData)) : Prop :=
  ∀ g d, lookupA wd g = some d →
    ∃ d', lookupA wd' g = some d' ∧ d'.count ≤ d.count ∧ d'.size = d.size

theorem wdLe_refl (wd : List (List String × NgramData)) : wdLe wd wd :=
  fun _ d h => ⟨d, h, le_refl _, rfl⟩

theorem wdLe_trans {a b c : List (List String × NgramData)}
    (hab : wdLe a b) (hbc : wdLe b c) : wdLe a c := by
  intro g d h
  obtain ⟨d1, h1, hc1, hs1⟩ := hbc g d h
  obtain ⟨d2, h2, hc2, hs2⟩ := hab g d1 h1
  exact ⟨d2, h2, le_trans hc2 hc1, hs2.trans hs1⟩

theorem decAssoc_wdLe (wd : List (List String × NgramData))
    (s : List String) {c : Int} (hc : 0 ≤ c) : wdLe (decAssoc wd s c) wd := by
  intro g d h
  rw [lookupA_decAssoc, h]
  by_cases hgs : g = s
  · refine ⟨⟨d.count - c, d.size⟩, by simp [hgs], ?_, rfl⟩
    show d.count - c ≤ d.count
    omega
  · exact ⟨d, by simp [hgs], le_refl _, rfl⟩

theorem foldl_decAssoc_wdLe (subs : List (List String)) {c : Int}
    (hc : 0 ≤ c) :
    ∀ wd, wdLe (subs.foldl (fun w s => decAssoc w s c) wd) wd := by
  induction subs with
  | nil => intro wd; exact wdLe_refl wd
  | cons s t ih =>
      intro wd
      rw [List.foldl_cons]
      exact wdLe_trans (ih _) (decAssoc_wdLe wd s hc)

theorem reduceByNgram_wdLe {wd : List (List String × NgramData)}
    {g : List String} {d : NgramData} (h : lookupA wd g = some d)
    (hd : 0 < d.count) : wdLe (reduceByNgram wd g) wd := by
  unfold reduceByNgram
  rw [h]
  exact foldl_decAssoc_wdLe _ (le_of_lt hd) wd

theorem processWitness_wdLe (wd : List (List String × NgramData)) :
    wdLe (processWitness wd) wd := by
  unfold processWitness
  generalize sortBySizeDesc wd = ks
  induction ks generalizing wd with
  | nil => exact wdLe_refl wd
  | cons k t ih =>
      rw [List.foldl_cons]
      refine wdLe_trans (ih _) ?_
      cases hk : lookupA wd k with
      | none => exact wdLe_refl wd
      | some d =>
          show wdLe (if 0 < d.count then reduceByNgram wd k else wd) wd
          by_cases hd : 0 < d.count
          · rw [if_pos hd]
            exact reduceByNgram_wdLe hk hd
          · rw [if_neg hd]
            exact wdLe_refl wd

theorem keys_decAssoc (wd : List (List String × NgramData)) (s : List String)
    (c : Int) : (decAssoc wd s c).map Prod.fst = wd.map Prod.fst := by
  unfold decAssoc
  rw [List.map_map]
  apply List.map_congr_left
  intro e _
  dsimp
  split <;> rfl

theorem keys_foldl_decAssoc (subs : List (List String)) (c : Int) :
    ∀ wd : List (List String × NgramData),
      ((subs.foldl (fun w s => decAssoc w s c) wd).map Prod.fst) =
        wd.map Prod.fst := by
  induction subs with
  | nil => intro wd; rfl
  | cons s t ih =>
      intro wd
      rw [List.foldl_cons, ih, keys_decAssoc]

theorem keys_reduceByNgram (wd : List (List String × NgramData))
    (g : List String) :
    (reduceByNgram wd g).map Prod.fst = wd.map Prod.fst := by
  unfold reduceByNgram
  cases lookupA wd g with
  | none => rfl
  | some d => exact keys_foldl_decAssoc _ _ wd

theorem keys_processWitness (wd : List (List String × NgramData)) :
    (processWitness wd).map Prod.fst = wd.map Prod.fst := by
  unfold processWitness
  generalize sortBySizeDesc wd = ks
  induction ks generalizing wd with
  | nil => rfl
  | cons k t ih =>
      rw [List.foldl_cons, ih]
      cases hk : lookupA wd k with
      | none => rfl
      | some d =>
          show (if 0 < d.count then reduceByNgram wd k else wd).map Prod.fst =
            wd.map Prod.fst
          by_cases hd : 0 < d.count
          · rw [if_pos hd, keys_reduceByNgram]
          · rw [if_neg hd]

theorem lookupA_of_mem_nodup {κ ν : Type} [DecidableEq κ]
    {l : List (κ × ν)} {k : κ} {v : ν} (hnd : (l.map Prod.fst).Nodup)
    (h : (k, v) ∈ l) : lookupA l k = some v := by
  induction l with
  | nil => simp at h
  | cons e t ih =>
      rw [List.map_cons, List.nodup_cons] at hnd
      rcases List.mem_cons.mp h with he | ht
      · rw [← he]
        simp [lookupA]
      · have hk : k ∈ t.map Prod.fst :=
          List.mem_map.mpr ⟨(k, v), ht, rfl⟩
        have hne : k ≠ e.1 := fun heq => hnd.1 (heq ▸ hk)
        obtain ⟨k1, v1⟩ := e
        simp only [lookupA, if_neg hne]
        exact ih hnd.2 ht

theorem mem_of_lookupA {κ ν : Type} [DecidableEq κ]
    {l : List (κ × ν)} {k : κ} {v : ν} (h : lookupA l k = some v) :
    (k, v) ∈ l := by
  induction l with
  | nil => simp [lookupA] at h
  | cons e t ih =>
      obtain ⟨k1, v1⟩ := e
      by_cases hk : k = k1
      · subst hk
        have h' : v1 = v := by simpa [lookupA] using h
        subst h'
        exact List.mem_cons_self _ _
      · simp only [lookupA, if_neg hk] at h
        exact List.mem_cons_of_mem _ (ih h)

theorem any_of_lookupA_isSome {κ ν : Type} [DecidableEq κ]
    {l : List (κ × ν)} {k : κ} {v : ν} (h : lookupA l k = some v) :
    l.any (fun p => decide (p.1 = k)) = true := by
  apply List.any_eq_true.mpr
  exact ⟨(k, v), mem_of_lookupA h, by simp⟩

theorem lookupA_none_not_mem {κ ν : Type} [DecidableEq κ]
    {l : List (κ × ν)} {k : κ} (h : lookupA l k = none) :
    k ∉ l.map Prod.fst := by
  induction l with
  | nil => simp
  | cons e t ih =>
      obtain ⟨k1, v1⟩ := e
      by_cases hk : k = k1
      · subst hk
        simp [lookupA] at h
      · simp only [lookupA, if_neg hk] at h
        simp only [List.map_cons, List.mem_cons]
        rintro (h1 | h1)
        · exact hk h1
        · exact ih h h1

theorem keys_upsertA_of_lookup {κ ν : Type} [DecidableEq κ]
    {l : List (κ × ν)} {k : κ} {w : ν} (h : lookupA l k = some w) (v : ν) :
    (upsertA l k v).map Prod.fst = l.map Prod.fst := by
  unfold upsertA
  rw [if_pos (any_of_lookupA_isSome h), List.map_map]
  apply List.map_congr_left
  intro e _
  dsimp
  split <;> rename_i hsp
  · rw [← hsp]
  · rfl

theorem nodup_keys_upsertA {κ ν : Type} [DecidableEq κ]
    {l : List (κ × ν)} (hnd : (l.map Prod.fst).Nodup) (k : κ) (v : ν) :
    ((upsertA l k v).map Prod.fst).Nodup := by
  unfold upsertA
  split <;> rename_i hany
  · have hkeys : (l.map (fun p => if p.1 = k then (k, v) else p)).map
        Prod.fst = l.map Prod.fst := by
      rw [List.map_map]
      apply List.map_congr_left
      intro e _
      dsimp
      split <;> rename_i hsp
      · rw [← hsp]
      · rfl
    rw [hkeys]
    exact hnd
  · rw [List.map_append]
    simp only [List.map_cons, List.map_nil]
    rw [List.nodup_append]
    refine ⟨hnd, List.nodup_singleton _, ?_⟩
    intro a ha hb
    simp only [List.mem_singleton] at hb
    subst hb
    have := lookupA_none_not_mem
      (lookupA_eq_none_of_not_mem (Bool.not_eq_true _ ▸ hany))
    exact this ha

theorem mem_upsertA {κ ν : Type} [DecidableEq κ]
    {l : List (κ × ν)} {k : κ} {v : ν} {e : κ × ν}
    (h : e ∈ upsertA l k v) : e = (k, v) ∨ e ∈ l := by
  unfold upsertA at h
  split at h
  · obtain ⟨p, hp, hpe⟩ := List.mem_map.mp h
    by_cases hpk : p.1 = k
    · rw [if_pos hpk] at hpe
      exact Or.inl hpe.symm
    · rw [if_neg hpk] at hpe
      exact Or.inr (hpe ▸ hp)
  · rcases List.mem_append.mp h with h1 | h1
    · exact Or.inr h1
    · simp only [List.mem_singleton] at h1
      exact Or.inl h1

theorem buildData_append (m : List Row) (x : Row) :
    buildData (m ++ [x]) =
      (match lookupA (buildData m) (x.work, x.siglum) with
       | some wd =>
           upsertA (buildData m) (x.work, x.siglum)
             (upsertA wd x.ngram ⟨x.count, x.size⟩)
       | none =>
           buildData m ++
             [((x.work, x.siglum), [(x.ngram, ⟨x.count, x.size⟩)])]) := by
  unfold buildData
  rw [List.foldl_append]
  rfl

theorem buildData_keys_nodup (m : List Row) :
    ((buildData m).map Prod.fst).Nodup := by
  induction m using List.reverseRecOn with
  | nil => simp [buildData]
  | append_singleton m x ih =>
      rw [buildData_append]
      cases hl : lookupA (buildData m) (x.work, x.siglum) with
      | some wd =>
          show ((upsertA (buildData m) (x.work, x.siglum)
            (upsertA wd x.ngram ⟨x.count, x.size⟩)).map Prod.fst).Nodup
          exact nodup_keys_upsertA ih _ _
      | none =>
          show (((buildData m) ++
            [((x.work, x.siglum),
              [(x.ngram, (⟨x.count, x.size⟩ : NgramData))])]).map
              Prod.fst).Nodup
          rw [List.map_append]
          simp only [List.map_cons, List.map_nil]
          rw [List.nodup_append]
          refine ⟨ih, List.nodup_singleton _, ?_⟩
          intro a ha hb
          simp only [List.mem_singleton] at hb
          subst hb
          exact lookupA_none_not_mem hl ha

theorem buildData_inner_nodup (m : List Row) :
    ∀ e ∈ buildData m, (e.2.map Prod.fst).Nodup := by
  induction m using List.reverseRecOn with
  | nil => simp [buildData]
  | append_singleton m x ih =>
      intro e he
      rw [buildData_append] at he
      cases hl : lookupA (buildData m) (x.work, x.siglum) with
      | some wd =>
          rw [hl] at he
          rcases mem_upsertA he with h1 | h1
          · have hwd : ((wd.map Prod.fst)).Nodup :=
              ih _ (mem_of_lookupA hl)
            rw [h1]
            exact nodup_keys_upsertA hwd _ _
          · exact ih e h1
      | none =>
          rw [hl] at he
          rcases List.mem_append.mp he with h1 | h1
          · exact ih e h1
          · simp only [List.mem_singleton] at h1
            rw [h1]
            simp

theorem buildData_lookup {m : List Row} {r : Row}
    (hu : (m.map tripleOf).Nodup) (hr : r ∈ m) :
    ∃ wd, lookupA (buildData m) (r.work, r.siglum) = some wd ∧
      lookupA wd r.ngram = some ⟨r.count, r.size⟩ := by
  induction m using List.reverseRecOn with
  | nil => simp at hr
  | append_singleton m x ih =>
      rw [List.map_append, List.nodup_append] at hu
      obtain ⟨hum, _, hdisj⟩ := hu
      rw [buildData_append]
      rcases List.mem_append.mp hr with hrm | hrx
      · obtain ⟨wd, hwd, hg⟩ := ih hum hrm
        have htr : tripleOf r ∈ m.map tripleOf :=
          List.mem_map.mpr ⟨r, hrm, rfl⟩
        have htx : tripleOf x ≠ tripleOf r := by
          intro he
          have h1 : tripleOf x ∈ m.map tripleOf := by
            rw [he]
            exact htr
          exact hdisj h1 (by simp)
        by_cases hkey : (x.work, x.siglum) = (r.work, r.siglum)
        · cases hl : lookupA (buildData m) (x.work, x.siglum) with
          | none =>
              rw [hkey] at hl
              rw [hl] at hwd
              exact absurd hwd (by simp)
          | some wd0 =>
              have hwd0 : wd0 = wd := by
                rw [hkey] at hl
                rw [hl] at hwd
                exact Option.some.injEq _ _ ▸ hwd
              have hng : x.ngram ≠ r.ngram := by
                intro hne
                apply htx
                unfold tripleOf
                rw [hne]
                rw [Prod.mk.injEq] at hkey
                rw [hkey.1, hkey.2]
              refine ⟨upsertA wd0 x.ngram ⟨x.count, x.size⟩, ?_, ?_⟩
              · rw [← hkey]
                exact lookupA_upsertA_self _ _ _
              · rw [lookupA_upsertA_ne _ _ _ (fun h => hng h.symm), hwd0]
                exact hg
        · cases hl : lookupA (buildData m) (x.work, x.siglum) with
          | none =>
              refine ⟨wd, ?_, hg⟩
              rw [lookupA_append]
              rw [hwd]
          | some wd0 =>
              refine ⟨wd, ?_, hg⟩
              rw [lookupA_upsertA_ne _ _ _ (fun h => hkey h.symm)]
              exact hwd
      · have hxr : r = x := by simpa using hrx
        subst hxr
        cases hl : lookupA (buildData m) (r.work, r.siglum) with
        | some wd0 =>
            refine ⟨upsertA wd0 r.ngram ⟨r.count, r.size⟩,
              lookupA_upsertA_self _ _ _, lookupA_upsertA_self _ _ _⟩
        | none =>
            refine ⟨[(r.ngram, ⟨r.count, r.size⟩)], ?_, ?_⟩
            · rw [lookupA_append, hl]
              simp [lookupA]
            · simp [lookupA]

theorem reduceM_mem {m : List Row} {r' : Row} (h : r' ∈ reduceM m) :
    ∃ e ∈ buildData m, ∃ g d, (g, d) ∈ processWitness e.2 ∧
      0 < d.count ∧ r'.ngram = g ∧ r'.work = e.1.1 ∧ r'.siglum = e.1.2 ∧
      r'.count = d.count := by
  unfold reduceM at h
  simp only [List.mem_flatten, List.mem_map] at h
  obtain ⟨l, ⟨e, he, hl⟩, hrl⟩ := h
  rw [← hl] at hrl
  obtain ⟨gd, hgd, hrgd⟩ := List.mem_map.mp hrl
  obtain ⟨hgdp, hpos⟩ := List.mem_filter.mp hgd
  refine ⟨e, he, gd.1, gd.2, by simpa using hgdp, by simpa using hpos,
    ?_, ?_, ?_, ?_⟩ <;> rw [← hrgd]

/-- Claim C3: for a table with unique (ngram, work, siglum) triples,
Reduce never raises a triple's count, and every row it emits has a
strictly positive count. -/
theorem c3_reduce_monotone (m : List Row) (hu : (m.map tripleOf).Nodup) :
    (∀ r ∈ m, ∀ r' ∈ reduceM m, tripleOf r' = tripleOf r →
      r'.count ≤ r.count) ∧
    (∀ r' ∈ reduceM m, 0 < r'.count) := by
  constructor
  · intro r hr r' hr' htr
    obtain ⟨e, he, g, d, hgd, hdpos, hng, hwk, hsg, hcnt⟩ := reduceM_mem hr'
    have htr' : r'.ngram = r.ngram ∧ r'.work = r.work ∧
        r'.siglum = r.siglum := by
      unfold tripleOf at htr
      rw [Prod.mk.injEq, Prod.mk.injEq] at htr
      exact ⟨htr.1, htr.2.1, htr.2.2⟩
    obtain ⟨wd, hwd, hg⟩ := buildData_lookup hu hr
    have hekey : e.1 = (r.work, r.siglum) := by
      have : e.1 = (e.1.1, e.1.2) := rfl
      rw [this, ← hwk, ← hsg, htr'.2.1, htr'.2.2]
    have hewd : lookupA (buildData m) e.1 = some e.2 := by
      have hme : (e.1, e.2) ∈ buildData m := by
        rw [Prod.mk.eta]
        exact he
      exact lookupA_of_mem_nodup (buildData_keys_nodup m) hme
    have hwde : wd = e.2 := by
      rw [hekey] at hewd
      rw [hewd] at hwd
      exact (Option.some.injEq _ _ ▸ hwd).symm
    obtain ⟨d', hd', hcle, _⟩ :=
      processWitness_wdLe e.2 r.ngram ⟨r.count, r.size⟩ (hwde ▸ hg)
    have hnodup : ((processWitness e.2).map Prod.fst).Nodup := by
      rw [keys_processWitness]
      exact buildData_inner_nodup m e he
    have hlk : lookupA (processWitness e.2) g = some d :=
      lookupA_of_mem_nodup hnodup hgd
    have hgr : g = r.ngram := by rw [← hng, htr'.1]
    rw [hgr] at hlk
    rw [hlk] at hd'
    have hdd : d' = d := (Option.some.injEq _ _ ▸ hd').symm
    rw [hcnt, ← hdd]
    exact hcle
  · intro r' hr'
    obtain ⟨e, he, g, d, hgd, hdpos, hng, hwk, hsg, hcnt⟩ := reduceM_mem hr'
    rw [hcnt]
    exact hdpos

/-- Witness for claim C3 at a concrete witness: a trigram of count 1
reduces its contained bigram's count from 2 to 1 and all output counts
stay positive. -/
theorem c3_reduce_monotone_witness :
    (∀ r ∈ tblReduce, ∀ r' ∈ reduceM tblReduce,
      tripleOf r' = tripleOf r → r'.count ≤ r.count) ∧
    (∀ r' ∈ reduceM tblReduce, 0 < r'.count) :=
  c3_reduce_monotone tblReduce (by decide)

theorem replaceCountF_fuel (p : List (Option String)) :
    ∀ f : Nat, ∀ w : List (Option String), w.length ≤ f →
      replaceCountF p f w = replaceCountF p w.length w := by
  intro f
  induction f using Nat.strong_induction_on with
  | _ f ih =>
      intro w hw
      match f, w with
      | 0, w =>
          have hw0 : w = [] := List.length_eq_zero.mp (Nat.le_zero.mp hw)
          subst hw0
          rfl
      | f + 1, [] =>
          by_cases hp : p = [] <;> simp [replaceCountF, hp]
      | f + 1, h :: t =>
          by_cases hp : p = []
          · simp [replaceCountF, hp]
          · have hplen : 0 < p.length := List.length_pos.mpr hp
            simp only [List.length_cons] at hw
            by_cases hpre : p <+: (h :: t)
            · have hd1 : ((h :: t).drop p.length).length ≤ f := by
                rw [List.length_drop]
                simp only [List.length_cons]
                omega
              have hd2 : ((h :: t).drop p.length).length ≤ t.length := by
                rw [List.length_drop]
                simp only [List.length_cons]
                omega
              simp only [replaceCountF, if_neg hp, if_pos hpre]
              rw [ih f (Nat.lt_succ_self f) _ hd1,
                ih t.length (Nat.lt_succ_of_le (Nat.le_of_succ_le_succ hw)) _ hd2]
            · simp only [replaceCountF, if_neg hp, if_neg hpre]
              rw [ih f (Nat.lt_succ_self f) t (Nat.le_of_succ_le_succ hw),
                ih t.length (Nat.lt_succ_of_le (Nat.le_of_succ_le_succ hw)) t le_rfl]

theorem replaceCount_empty_pat (w : List (Option String)) :
    replaceCount [] w = (w, 0) := by
  unfold replaceCount
  cases w with
  | nil => rfl
  | cons h t => simp [replaceCountF]

theorem replaceCount_nil {p : List (Option String)} (hp : p ≠ []) :
    replaceCount p [] = ([], 0) := by
  rfl

theorem replaceCount_hit {p : List (Option String)} (hp : p ≠ [])
    {h : Option String} {t : List (Option String)}
    (hpre : p <+: (h :: t)) :
    replaceCount p (h :: t) =
      (none :: none :: (replaceCount p ((h :: t).drop p.length)).1,
        (replaceCount p ((h :: t).drop p.length)).2 + 1) := by
  have hplen : 0 < p.length := List.length_pos.mpr hp
  show replaceCountF p (t.length + 1) (h :: t) = _
  simp only [replaceCountF, if_neg hp, if_pos hpre]
  rw [replaceCountF_fuel p t.length _ (by
    rw [List.length_drop]
    simp only [List.length_cons]
    omega)]
  rfl

theorem replaceCount_miss {p : List (Option String)} (hp : p ≠ [])
    {h : Option String} {t : List (Option String)}
    (hpre : ¬p <+: (h :: t)) :
    replaceCount p (h :: t) =
      (h :: (replaceCount p t).1, (replaceCount p t).2) := by
  show replaceCountF p (t.length + 1) (h :: t) = _
  simp only [replaceCountF, if_neg hp, if_neg hpre]
  rw [replaceCountF_fuel p t.length t le_rfl]
  rfl

theorem allsome_skip_none {g : List String} {l : List (Option String)}
    (h : g.map some <:+: none :: l) : g = [] ∨ g.map some <:+: l := by
  cases g with
  | nil => exact Or.inl rfl
  | cons gh gt =>
      rcases List.infix_cons_iff.mp h with hpre | hinf
      · rw [List.map_cons, List.cons_prefix_cons] at hpre
        exact absurd hpre.1 (by simp)
      · exact Or.inr hinf

theorem replaceCount_back (p : List (Option String)) :
    ∀ (n : Nat) (w : List (Option String)), w.length ≤ n →
      ∀ g : List String,
        (g.map some <+: (replaceCount p w).1 → g.map some <+: w) ∧
        (g.map some <:+: (replaceCount p w).1 → g.map some <:+: w) := by
  intro n
  induction n with
  | zero =>
      intro w hw g
      have hw0 : w = [] := List.length_eq_zero.mp (Nat.le_zero.mp hw)
      subst hw0
      by_cases hp : p = []
      · subst hp
        rw [replaceCount_empty_pat]
        exact ⟨fun h => h, fun h => h⟩
      · rw [replaceCount_nil hp]
        exact ⟨fun h => h, fun h => h⟩
  | succ n ih =>
      intro w hw g
      by_cases hp : p = []
      · subst hp
        rw [replaceCount_empty_pat]
        exact ⟨fun h => h, fun h => h⟩
      · cases w with
        | nil =>
            rw [replaceCount_nil hp]
            exact ⟨fun h => h, fun h => h⟩
        | cons h t =>
            have hplen : 0 < p.length := List.length_pos.mpr hp
            by_cases hpre : p <+: (h :: t)
            · rw [replaceCount_hit hp hpre]
              have hlen : ((h :: t).drop p.length).length ≤ n := by
                rw [List.length_drop]
                simp only [List.length_cons] at hw ⊢
                omega
              constructor
              · intro hpref
                cases g with
                | nil => exact List.nil_prefix
                | cons gh gt =>
                    rw [List.map_cons, List.cons_prefix_cons] at hpref
                    exact absurd hpref.1 (by simp)
              · intro hinf
                cases g with
                | nil => exact List.nil_infix
                | cons gh gt =>
                    rcases allsome_skip_none hinf with hnil | h1
                    · simp at hnil
                    · rcases allsome_skip_none h1 with hnil | h2
                      · simp at hnil
                      · have h3 := (ih _ hlen (gh :: gt)).2 h2
                        exact List.IsInfix.trans h3
                          (List.IsSuffix.isInfix (List.drop_suffix _ _))
            · rw [replaceCount_miss hp hpre]
              have hlen : t.length ≤ n := by
                simp only [List.length_cons] at hw
                omega
              constructor
              · intro hpref
                cases g with
                | nil => exact List.nil_prefix
                | cons gh gt =>
                    rw [List.map_cons, List.cons_prefix_cons] at hpref
                    rw [List.map_cons, List.cons_prefix_cons]
                    exact ⟨hpref.1, (ih _ hlen gt).1 hpref.2⟩
              · intro hinf
                rcases List.infix_cons_iff.mp hinf with h1 | h1
                · have h2 := (ih _ hlen g).1
                  rcases List.infix_cons_iff.mp hinf with hp1 | hp1
                  · cases g with
                    | nil => exact List.nil_infix
                    | cons gh gt =>
                        rw [List.map_cons, List.cons_prefix_cons] at hp1
                        have h3 : (gh :: gt).map some <+: h :: t := by
                          rw [List.map_cons, List.cons_prefix_cons]
                          exact ⟨hp1.1, (ih _ hlen gt).1 hp1.2⟩
                        exact List.IsPrefix.isInfix h3
                  · have h3 := (ih _ hlen g).2 hp1
                    exact List.IsInfix.trans h3
                      (List.IsSuffix.isInfix (List.suffix_cons h t))
                · have h3 := (ih _ hlen g).2 h1
                  exact List.IsInfix.trans h3
                    (List.IsSuffix.isInfix (List.suffix_cons h t))

theorem replaceCount_found (p : List (Option String)) :
    ∀ (n : Nat) (w : List (Option String)), w.length ≤ n →
      0 < (replaceCount p w).2 → p <:+: w := by
  intro n
  induction n with
  | zero =>
      intro w hw hc
      have hw0 : w = [] := List.length_eq_zero.mp (Nat.le_zero.mp hw)
      subst hw0
      by_cases hp : p = []
      · subst hp
        exact List.nil_infix
      · rw [replaceCount_nil hp] at hc
        simp at hc
  | succ n ih =>
      intro w hw hc
      by_cases hp : p = []
      · subst hp
        exact List.nil_infix
      · cases w with
        | nil =>
            rw [replaceCount_nil hp] at hc
            simp at hc
        | cons h t =>
            by_cases hpre : p <+: (h :: t)
            · exact List.IsPrefix.isInfix hpre
            · rw [replaceCount_miss hp hpre] at hc
              have hlen : t.length ≤ n := by
                simp only [List.length_cons] at hw
                omega
              exact List.IsInfix.trans (ih _ hlen hc)
                (List.IsSuffix.isInfix (List.suffix_cons h t))

theorem mapSome_back {g l : List String} (h : g.map some <:+: l.map some) :
    g <:+: l := by
  obtain ⟨s, u, he⟩ := h
  refine ⟨s.filterMap id, u.filterMap id, ?_⟩
  have hcg := congrArg (List.filterMap id) he
  rw [List.filterMap_append, List.filterMap_append] at hcg
  have hg : (g.map some).filterMap id = g := by
    rw [List.filterMap_map]
    exact List.filterMap_some g
  have hl : (l.map some).filterMap id = l := by
    rw [List.filterMap_map]
    exact List.filterMap_some l
  rw [hg, hl] at hcg
  exact hcg

theorem alignNgrams_tokens (tokens : List String) :
    ∀ (es : List (List String)) (w : List (Option String)),
      (∀ g : List String, g.map some <:+: w → g <:+: tokens) →
      ∀ e ∈ alignNgrams w es, e <:+: tokens := by
  intro es
  induction es with
  | nil =>
      intro w hw e he
      simp [alignNgrams] at he
  | cons e rest ih =>
      intro w hw e' he'
      rw [alignNgrams] at he'
      rcases List.mem_append.mp he' with hrep | hrest
      · obtain ⟨hc, he⟩ := List.mem_replicate.mp hrep
        subst he
        have hpos : 0 < (replaceCount (e'.map some) w).2 := Nat.pos_of_ne_zero hc
        have hinf := replaceCount_found (e'.map some) w.length w le_rfl hpos
        exact hw e' hinf
      · refine ih _ ?_ e' hrest
        intro g hg
        exact hw g ((replaceCount_back (e.map some) w.length w le_rfl g).2 hg)

theorem genExtNgrams_tokens {tokens : List String}
    {wm : List (List String)} {n : Nat} {e : List String}
    (he : e ∈ genExtendedNgrams tokens wm n) : e <:+: tokens := by
  unfold genExtendedNgrams at he
  refine alignNgrams_tokens tokens _ (tokens.map some) ?_ e he
  intro g hg
  exact mapSome_back hg

theorem windows_mem {k : Nat} {e g : List String} (h : g ∈ windows k e) :
    g <:+: e ∧ g.length = k := by
  unfold windows at h
  obtain ⟨i, hi, hg⟩ := List.mem_map.mp h
  rw [List.mem_range] at hi
  constructor
  · rw [← hg]
    exact List.IsInfix.trans
      (List.IsPrefix.isInfix ( List.take_prefix _ _))
      (List.IsSuffix.isInfix (List.drop_suffix _ _))
  · rw [← hg, List.length_take, List.length_drop]
    omega

theorem mem_foldr_append {α β : Type} (f : α → List β) (l : List α)
    (x : β) :
    x ∈ l.foldr (fun a acc => f a ++ acc) [] ↔ ∃ a ∈ l, x ∈ f a := by
  induction l with
  | nil => simp
  | cons a t ih => simp [List.foldr_cons, ih]

theorem mergeRows_fields {rs : List Row} {r : Row} (h : r ∈ mergeRows rs) :
    ∃ r0 ∈ rs, r0.ngram = r.ngram ∧ r0.work = r.work ∧
      r0.siglum = r.siglum ∧ r0.size = r.size ∧ r0.label = r.label := by
  unfold mergeRows at h
  obtain ⟨k, hk, hr⟩ := List.mem_map.mp h
  obtain ⟨r0, hr0, hk0⟩ := List.mem_map.mp (dedupKeepFirst_sub hk)
  refine ⟨r0, hr0, ?_⟩
  rw [← hr, ← hk0]
  unfold rowKey5
  exact ⟨rfl, rfl, rfl, rfl, rfl⟩

theorem genExtMatches_fields {ext : List (List String)} {n : Nat}
    {w s lb : String} {r : Row}
    (h : r ∈ genExtendedMatches ext n w s lb) :
    r.work = w ∧ r.siglum = s ∧ r.ngram ≠ [] ∧
      ∃ e ∈ ext, r.ngram <:+: e := by
  unfold genExtendedMatches at h
  obtain ⟨r0, hr0, hng, hwk, hsg, _, _⟩ := mergeRows_fields h
  rw [mem_foldr_append] at hr0
  obtain ⟨e, he, hr0e⟩ := hr0
  rw [mem_foldr_append] at hr0e
  obtain ⟨k, hkmem, hr0k⟩ := hr0e
  obtain ⟨g, hg, hr0g⟩ := List.mem_map.mp hr0k
  have hgw := windows_mem (dedupKeepFirst_sub hg)
  have hkpos : 0 < k := by
    rw [List.mem_range'] at hkmem
    obtain ⟨i, _, hk⟩ := hkmem
    omega
  have hfields : r0.ngram = g ∧ r0.work = w ∧ r0.siglum = s := by
    rw [← hr0g]
    exact ⟨rfl, rfl, rfl⟩
  refine ⟨?_, ?_, ?_, e, he, ?_⟩
  · rw [← hwk, hfields.2.1]
  · rw [← hsg, hfields.2.2]
  · rw [← hng, hfields.1]
    intro hnil
    rw [hnil] at hgw
    have := hgw.2
    simp at this
    omega
  · rw [← hng, hfields.1]
    exact hgw.1

theorem size_le_maxSize {m : List Row} {r : Row} (h : r ∈ m) :
    r.size ≤ maxSize m := by
  unfold maxSize
  induction m with
  | nil => simp at h
  | cons a t ih =>
      rw [List.map_cons, List.foldr_cons]
      rcases List.mem_cons.mp h with ha | ht
      · rw [ha]
        exact le_max_left _ _
      · exact le_trans (ih ht) (le_max_right _ _)

theorem sepCh_foldr (a : List String) (x : List Char) :
    a.foldr (fun u acc => ' ' :: u.data ++ acc) x = sepCh a ++ x := by
  induction a with
  | nil => rfl
  | cons y t ih =>
      rw [List.foldr_cons, ih]
      show ' ' :: y.data ++ (sepCh t ++ x) = sepCh (y :: t) ++ x
      have : sepCh (y :: t) = ' ' :: y.data ++ sepCh t := rfl
      rw [this]
      simp

theorem sepCh_append (a b : List String) :
    sepCh (a ++ b) = sepCh a ++ sepCh b := by
  unfold sepCh
  rw [List.foldr_append]
  exact sepCh_foldr a _

theorem joinCh_mono {g t : List String} (hg : g ≠ []) (h : g <:+: t) :
    joinCh g <:+: joinCh t := by
  obtain ⟨s, u, he⟩ := h
  rw [← he]
  cases s with
  | nil =>
      cases g with
      | nil => exact absurd rfl hg
      | cons gh gt =>
          refine ⟨[], sepCh u, ?_⟩
          show joinCh (gh :: gt) ++ sepCh u = joinCh ([] ++ (gh :: gt) ++ u)
          show joinCh (gh :: gt) ++ sepCh u = joinCh ((gh :: gt) ++ u)
          show (gh.data ++ sepCh gt) ++ sepCh u = gh.data ++ sepCh (gt ++ u)
          rw [sepCh_append, List.append_assoc]
  | cons sh s' =>
      cases g with
      | nil => exact absurd rfl hg
      | cons gh gt =>
          refine ⟨sh.data ++ sepCh s' ++ [' '], sepCh u, ?_⟩
          show (sh.data ++ sepCh s' ++ [' ']) ++
              (gh.data ++ sepCh gt) ++ sepCh u =
            joinCh (sh :: (s' ++ (gh :: gt) ++ u))
          show (sh.data ++ sepCh s' ++ [' ']) ++
              (gh.data ++ sepCh gt) ++ sepCh u =
            sh.data ++ sepCh (s' ++ (gh :: gt) ++ u)
          rw [sepCh_append, sepCh_append]
          have hsg : sepCh (gh :: gt) = ' ' :: gh.data ++ sepCh gt := rfl
          rw [hsg]
          simp

theorem extRows_contained {corpus : CorpusM} {hn : Nat}
    {groups : List (String × String × String)}
    {wmOf : String × String × String → List (List String)} {r : Row}
    (hre : r ∈ (groups.map (fun wsl => genExtendedMatches
      (genExtendedNgrams (corpus.getWitness wsl.1 wsl.2.1) (wmOf wsl) hn)
      hn wsl.1 wsl.2.1 wsl.2.2)).flatten) :
    r.ngram ≠ [] ∧ r.ngram <:+: corpus.getWitness r.work r.siglum := by
  rw [List.mem_flatten] at hre
  obtain ⟨l, hl, hrl⟩ := hre
  obtain ⟨wsl, hwsl, hlf⟩ := List.mem_map.mp hl
  rw [← hlf] at hrl
  obtain ⟨hwk, hsg, hnn, e, he, hsub⟩ := genExtMatches_fields hrl
  have het := genExtNgrams_tokens he
  refine ⟨hnn, ?_⟩
  rw [hwk, hsg]
  exact List.IsInfix.trans hsub het

/-- Claim C4: every row Extend adds — every row of the output whose size
exceeds the input's maximum n-gram size — carries an n-gram contained in
the token content of the witness it names, both as a token subsequence
and (canonically joined) as a literal character substring. -/
theorem c4_extend_containment (corpus : CorpusM) (m : List Row) (r : Row)
    (hr : r ∈ extendM corpus m) (hsz : maxSize m < r.size) :
    r.ngram <:+: corpus.getWitness r.work r.siglum ∧
      joinCh r.ngram <:+: joinCh (corpus.getWitness r.work r.siglum) := by
  unfold extendM at hr
  split at hr
  · rename_i hemp
    rw [List.isEmpty_iff.mp hemp] at hr
    simp at hr
  · dsimp only at hr
    split at hr
    · rename_i hone
      have := size_le_maxSize hr
      omega
    · rcases List.mem_append.mp hr with hrm | hre
      · have := size_le_maxSize hrm
        omega
      · have hre2 : r.ngram ≠ [] ∧
            r.ngram <:+: corpus.getWitness r.work r.siglum := by
          split at hre
          · exact extRows_contained ((mem_rr_iff.mp hre).1)
          · exact extRows_contained hre
        exact ⟨hre2.2, joinCh_mono hre2.1 hre2.2⟩

/-- Witness for claim C4 at the spec's Scenario B: from the overlapping
trigrams of `a b c d`, Extend adds the quadgram row, whose n-gram is
contained in the witness tokens. -/
theorem c4_extend_containment_witness :
    rowExt.ngram <:+: corpusExt.getWitness rowExt.work rowExt.siglum ∧
      joinCh rowExt.ngram <:+:
        joinCh (corpusExt.getWitness rowExt.work rowExt.siglum) :=
  c4_extend_containment corpusExt tblExt rowExt (by decide) (by decide)
